import Mathlib

/-!
Shallow embedding of the core of the rust-timespan library
(src/error.rs, src/span.rs) and proofs about its specification.

Temporal points are modelled by an arbitrary linearly ordered type, as the
Spanable trait of the library demands Ord.  The chrono Duration type is
modelled by Int.  The displacement operations of the Spanable trait
(Add<Duration> and Sub<Duration>) and the signed_duration_since capability
are passed as explicit function parameters, since the library treats them
as opaque collaborator operations.
-/

deriving instance DecidableEq for Except

namespace Timespan

/-- The Error enum of src/error.rs.  The payloads of Parsing and Regex are
dropped, as no operation of the library inspects them. -/
inductive Error where
  | Parsing
  | Regex
  | Ordering
  | OutOfRange
  | Empty
  | NotContinuous
  | NoStart
  | NoEnd
  | LocalAmbigious
  | BadFormat
deriving DecidableEq

/-- The Span struct of src/span.rs.  The field named end in the source is
called endp here because end is a reserved word in Lean. -/
structure Span (T : Type) where
  start : T
  endp : T
deriving DecidableEq

variable {T : Type}

/-- Span::new (src/span.rs lines 74-83). -/
def Span.new [LinearOrder T] (start endp : T) : Except Error (Span T) :=
  if start ≥ endp then .error .Ordering
  else .ok ⟨start, endp⟩

/-- Span::duration (src/span.rs lines 86-88); dsub models the
signed_duration_since capability of the Spanable trait. -/
def Span.duration (dsub : T → T → Int) (self : Span T) : Int :=
  dsub self.endp self.start

/-- Span::difference (src/span.rs lines 100-126). -/
def Span.difference [LinearOrder T] (self other : Span T) : Except Error (Span T) :=
  if self.start ≥ other.start ∧ self.endp ≤ other.endp then
    .error .Empty
  else if self.endp ≤ other.start then
    .ok self
  else if self.start ≥ other.endp then
    .ok self
  else if self.endp > other.start ∧ self.endp ≤ other.endp ∧ self.start < other.start then
    .ok ⟨self.start, other.start⟩
  else if self.start ≥ other.start ∧ self.start < other.endp ∧ self.endp > other.endp then
    .ok ⟨other.endp, self.endp⟩
  else
    .error .NotContinuous

/-- Span::symmetric_difference (src/span.rs lines 137-153). -/
def Span.symmetric_difference [LinearOrder T] (self other : Span T) :
    Except Error (Span T) :=
  if self.endp = other.start then
    .ok ⟨self.start, other.endp⟩
  else if other.endp = self.start then
    .ok ⟨other.start, self.endp⟩
  else
    .error .NotContinuous

/-- Span::intersection (src/span.rs lines 162-171). -/
def Span.intersection [LinearOrder T] (self other : Span T) : Except Error (Span T) :=
  if self.endp ≤ other.start ∨ other.endp ≤ self.start then
    .error .Empty
  else
    .ok ⟨max self.start other.start, min self.endp other.endp⟩

/-- Span::union (src/span.rs lines 180-189). -/
def Span.union [LinearOrder T] (self other : Span T) : Except Error (Span T) :=
  if self.endp < other.start ∨ other.endp < self.start then
    .error .NotContinuous
  else
    .ok ⟨min self.start other.start, max self.endp other.endp⟩

/-- Span::contains (src/span.rs lines 192-194). -/
def Span.contains [LinearOrder T] (self : Span T) (item : T) : Bool :=
  self.start ≤ item ∧ self.endp ≥ item

/-- Span::is_disjoint (src/span.rs lines 197-199). -/
def Span.is_disjoint [LinearOrder T] (self other : Span T) : Bool :=
  self.endp ≤ other.start ∨ self.start ≥ other.endp

/-- Span::is_subset (src/span.rs lines 202-204). -/
def Span.is_subset [LinearOrder T] (self other : Span T) : Bool :=
  self.start ≥ other.start ∧ self.endp ≤ other.endp

/-- Span::is_superset (src/span.rs lines 207-209). -/
def Span.is_superset [LinearOrder T] (self other : Span T) : Bool :=
  self.start ≤ other.start ∧ self.endp ≥ other.endp

/-- Span::split_off (src/span.rs lines 214-229). -/
def Span.split_off [LinearOrder T] (self : Span T) (at_ : T) :
    Except Error (Span T × Span T) :=
  if self.start ≥ at_ ∨ self.endp ≤ at_ then
    .error .OutOfRange
  else
    .ok (⟨self.start, at_⟩, ⟨at_, self.endp⟩)

/-- Span::append (src/span.rs lines 235-242).  The mutation of the receiver
is modelled by returning the post-call state next to the result; add models
Add<Duration> for the point type.  On the error path the source returns
before assigning self.end, so the state is returned unchanged. -/
def Span.append [LinearOrder T] (add : T → Int → T) (self : Span T) (time : Int) :
    Except Error Unit × Span T :=
  let new := add self.endp time
  if new ≤ self.start then (.error .Empty, self)
  else (.ok (), ⟨self.start, new⟩)

/-- Span::prepend (src/span.rs lines 248-255); sub models Sub<Duration>. -/
def Span.prepend [LinearOrder T] (sub : T → Int → T) (self : Span T) (time : Int) :
    Except Error Unit × Span T :=
  let new := sub self.start time
  if new ≥ self.endp then (.error .Empty, self)
  else (.ok (), ⟨new, self.endp⟩)

/-- Span::pop (src/span.rs lines 260-267). -/
def Span.pop [LinearOrder T] (sub : T → Int → T) (self : Span T) (time : Int) :
    Except Error Unit × Span T :=
  let new := sub self.endp time
  if new ≤ self.start then (.error .Empty, self)
  else (.ok (), ⟨self.start, new⟩)

/-- Span::shift (src/span.rs lines 272-279). -/
def Span.shift [LinearOrder T] (add : T → Int → T) (self : Span T) (time : Int) :
    Except Error Unit × Span T :=
  let new := add self.start time
  if new ≥ self.endp then (.error .Empty, self)
  else (.ok (), ⟨new, self.endp⟩)

/-- The validity invariant of a span: start lies strictly before end. -/
abbrev Span.valid [LinearOrder T] (self : Span T) : Prop :=
  self.start < self.endp

/-!
Model of the regular expressions used by from_str and parse_from_str.

Both regexes of src/span.rs are concatenations of literal characters,
capture groups over the dot atom, and one-or-more whitespace atoms:
from_str uses the fixed pattern with two groups around a hyphen, and
parse_from_str builds an escaped literal template in which every
placeholder occurrence became a capture group.  A pattern is therefore a
list of three kinds of tokens.  The matcher below implements the
leftmost-first (backtracking-preference) match semantics of the rust regex
crate for such concatenations: a group prefers the longest extent and
never crosses a newline (the dot atom), a whitespace atom prefers the
longest run of at least one whitespace character, and the overall match
is searched from the leftmost start position.  Matching is unanchored on
both sides, as in Regex::captures.
-/

/-- One token of a compiled pattern: a literal character, a capture group
over the dot atom, or a one-or-more whitespace atom. -/
inductive Tok where
  | lit (c : Char)
  | group
  | wsPlus
deriving DecidableEq

/-- The whitespace class of the regex crate, restricted to its ASCII part
(space, tab, line feed, vertical tab, form feed, carriage return). -/
def isWs (c : Char) : Bool :=
  c == ' ' || c == '\t' || c == '\n' || c == '\x0b' || c == '\x0c' || c == '\r'

/-- Backtracking search for the extent of a capture group.  gRev is the
reversed content still claimed by the group; the longest extent is tried
first and one character is given back to the remainder on each failure of
the continuation k. -/
def groupGo (k : List Char → Option (List (List Char))) :
    List Char → List Char → Option (List (List Char))
  | [], rest => (k rest).map (fun cs => [] :: cs)
  | c :: gRev, rest =>
    match k rest with
    | some cs => some ((c :: gRev).reverse :: cs)
    | none => groupGo k gRev (c :: rest)

/-- Backtracking search for the extent of a one-or-more whitespace atom;
the run may not shrink to zero characters. -/
def wsGo (k : List Char → Option (List (List Char))) :
    List Char → List Char → Option (List (List Char))
  | [], _ => none
  | c :: wRev, rest =>
    match k rest with
    | some cs => some cs
    | none => wsGo k wRev (c :: rest)

/-- Match a pattern at the start of the input, returning the list of
captured substrings, one per group token, in group order.  Trailing input
is left unconsumed, as a regex match need not reach the end of the
haystack. -/
def matchToks : List Tok → List Char → Option (List (List Char))
  | [] => fun _ => some []
  | .lit c :: ts => fun l =>
    match l with
    | [] => none
    | x :: xs => if x = c then matchToks ts xs else none
  | .group :: ts => fun l =>
    let g := l.takeWhile (fun c => !(c == '\n'))
    groupGo (matchToks ts) g.reverse (l.drop g.length)
  | .wsPlus :: ts => fun l =>
    let w := l.takeWhile isWs
    if w.isEmpty then none
    else wsGo (matchToks ts) w.reverse (l.drop w.length)

/-- Regex::captures: try the match at every start position from the left,
including the position after the last character. -/
def capSearch (p : List Tok) : List Char → Option (List (List Char))
  | [] => matchToks p []
  | c :: t =>
    match matchToks p (c :: t) with
    | some cs => some cs
    | none => capSearch p t

/-- The characters of the placeholder token for the start point. -/
def startTok : List Char := ['{', 's', 't', 'a', 'r', 't', '}']

/-- The characters of the placeholder token for the end point. -/
def endTok : List Char := ['{', 'e', 'n', 'd', '}']

/-- The tokens of the FromStr regex behind its leading group: one or more
whitespace, a hyphen, one or more whitespace, and a group. -/
def fromStrTail : List Tok := [.wsPlus, .lit '-', .wsPlus, .group]

/-- The pattern of the FromStr impl (src/span.rs line 386): a group, one
or more whitespace, a hyphen, one or more whitespace, and a group. -/
def fromStrPat : List Tok := .group :: fromStrTail

/-- The composite of regex::escape, the replace_all of both escaped
placeholders by a group, and Regex::new in parse_from_str (src/span.rs
lines 349-354): every occurrence of a placeholder token in the template
becomes a capture group and every other character a literal.  replace_all
substitutes leftmost non-overlapping occurrences, which the left-to-right
scan below reproduces; escaping is injective on characters, so occurrences
in the escaped text correspond exactly to occurrences in the template. -/
def toPattern : List Char → List Tok
  | '{' :: 's' :: 't' :: 'a' :: 'r' :: 't' :: '}' :: t => .group :: toPattern t
  | '{' :: 'e' :: 'n' :: 'd' :: '}' :: t => .group :: toPattern t
  | c :: t => .lit c :: toPattern t
  | [] => []

/-- Number of capture groups of a pattern. -/
def countGroups : List Tok → Nat
  | [] => 0
  | .group :: ts => countGroups ts + 1
  | _ :: ts => countGroups ts

/-- str::find of a literal needle: the first position at which the needle
is a prefix of the remainder.  The source works with byte offsets and this
model with character offsets; the two orderings of positions agree. -/
def findSub (pat : List Char) : List Char → Option Nat
  | [] => if pat.isEmpty then some 0 else none
  | c :: t =>
    if pat.isPrefixOf (c :: t) then some 0
    else (findSub pat t).map (fun n => n + 1)

/-- The FromStr impl for Span (src/span.rs lines 385-393).  parse models
T::from_str composed with the conversion of its error into Error. -/
def Span.from_str [LinearOrder T] (parse : List Char → Except Error T)
    (s : List Char) : Except Error (Span T) :=
  match capSearch fromStrPat s with
  | none => .error .Empty
  | some caps =>
    match caps.get? 0 with
    | none => .error .NoStart
    | some c1 =>
      match caps.get? 1 with
      | none => .error .NoEnd
      | some c2 =>
        (parse c1).bind fun a => (parse c2).bind fun b => Span.new a b

/-- Span::parse_from_str (src/span.rs lines 348-375).  parse models
T::parse_from_str of the Parsable trait, taking the raw text and the point
format string.  The two unchecked unwraps of the source after a successful
match are modelled by the none result: none is returned exactly when an
unwrap would panic.  Regex::new cannot fail on the escaped template, so no
Regex error is modelled. -/
def Span.parse_from_str [LinearOrder T]
    (parse : List Char → List Char → Except Error T)
    (s fmt startFmt endFmt : List Char) : Option (Except Error (Span T)) :=
  match capSearch (toPattern fmt) s with
  | none => some (.error .Empty)
  | some caps =>
    match findSub startTok fmt with
    | none => some (.error .NoStart)
    | some start_idx =>
      match findSub endTok fmt with
      | none => some (.error .NoEnd)
      | some end_idx =>
        match caps.get? 0, caps.get? 1 with
        | some m1, some m2 =>
          some (if start_idx < end_idx then
              (parse m1 startFmt).bind fun a =>
                (parse m2 endFmt).bind fun b => Span.new a b
            else
              (parse m2 startFmt).bind fun a =>
                (parse m1 endFmt).bind fun b => Span.new a b)
        | _, _ => none

/-!
Definitions written from the words of the specification, used to compare
the specified behaviour with the embedded source behaviour.
-/

/-- Modelled from the spec wording of claim C1: Error::Empty exactly for a
zero-width overlap with touching endpoints, Error::NotContinuous for
disjoint spans with a true gap, the clipped span otherwise; the touching
case is decided first. -/
def Span.intersectionClaim [LinearOrder T] (self other : Span T) :
    Except Error (Span T) :=
  if self.endp = other.start then .error .Empty
  else if self.endp ≤ other.start ∨ other.endp ≤ self.start then .error .NotContinuous
  else .ok ⟨max self.start other.start, min self.endp other.endp⟩

/-- Modelled from the spec wording of claim C4: the five-case policy table
of difference, evaluated in order. -/
def Span.differenceSpec [LinearOrder T] (self other : Span T) :
    Except Error (Span T) :=
  if other.start ≤ self.start ∧ self.endp ≤ other.endp then .error .Empty
  else if self.endp ≤ other.start ∨ other.endp ≤ self.start then .ok self
  else if other.start < self.endp ∧ self.endp ≤ other.endp ∧ self.start < other.start then
    .ok ⟨self.start, other.start⟩
  else if self.start < other.endp ∧ other.start ≤ self.start ∧ other.endp < self.endp then
    .ok ⟨other.endp, self.endp⟩
  else .error .NotContinuous

/-- Split of the input at the first hyphen, with the whitespace run around
that hyphen absorbed into the delimiter; none when no hyphen occurs. -/
def firstHyphenSplit : List Char → Option (List Char × List Char)
  | [] => none
  | '-' :: t => some ([], t.dropWhile isWs)
  | c :: t => (firstHyphenSplit t).map (fun p => (c :: p.1, p.2))

/-- Remove the trailing whitespace run of a list. -/
def trimWsRight (l : List Char) : List Char :=
  (l.reverse.dropWhile isWs).reverse

/-- Modelled from the spec wording of claim C3: the template-less parse
splits on the first occurrence of a hyphen with optional surrounding
whitespace into exactly two parts, padding with the empty string when the
delimiter is absent, and parses the two parts with the native point
parser. -/
def fromStrClaim [LinearOrder T] (parse : List Char → Except Error T)
    (s : List Char) : Except Error (Span T) :=
  let parts :=
    match firstHyphenSplit s with
    | some p => (trimWsRight p.1, p.2)
    | none => (s, [])
  (parse parts.1).bind fun a => (parse parts.2).bind fun b => Span.new a b

/-- Does the input begin with the separator of the default form, one or
more whitespace characters, a hyphen, and one or more whitespace
characters?  If so, the remainder after the whitespace run that follows
the hyphen; none otherwise. -/
def sepCut (l : List Char) : Option (List Char) :=
  if (l.takeWhile isWs).isEmpty then none
  else
    match l.dropWhile isWs with
    | x :: r2 =>
      if x = '-' then
        if (r2.takeWhile isWs).isEmpty then none
        else some (r2.dropWhile isWs)
      else none
    | [] => none

/-- The split of the default parse described by the amended claim C3: the
start part is the longest prefix that is followed by the separator of
sepCut, equivalently the split at the last separator occurrence; the end
part is the remainder behind the separator.  A later separator occurrence
takes precedence over an earlier one. -/
def lastDelimSplit : List Char → Option (List Char × List Char)
  | [] => none
  | c :: t =>
    match lastDelimSplit t with
    | some p => some (c :: p.1, p.2)
    | none => (sepCut (c :: t)).map (fun r => (([] : List Char), r))

/-- Helper for reasoning about lastDelimSplit: the same search where the
separator may continue into a fixed suffix v behind the searched part. -/
def ldsAux : List Char → List Char → Option (List Char × List Char)
  | [], _ => none
  | c :: t, v =>
    match ldsAux t v with
    | some p => some (c :: p.1, p.2)
    | none => (sepCut (c :: (t ++ v))).map (fun r => (([] : List Char), r))

/-- A concrete point parser over Nat for witnesses: a nonempty string of
decimal digits denotes its value, anything else fails with
Error::Parsing. -/
def parseNatPoint (l : List Char) : Except Error Nat :=
  if l ≠ [] ∧ l.all (fun c => c.isDigit) then
    .ok (l.foldl (fun n c => 10 * n + (c.toNat - 48)) 0)
  else .error .Parsing

/-- A concrete point parser over Nat for counterexamples: every string
parses to its length. -/
def parseLen (l : List Char) : Except Error Nat :=
  .ok l.length

end Timespan

namespace Timespan

/-!
Theorems for the claims about the span algebra.
-/

/-- Claim C1, counterexample: for the valid and gap-disjoint spans (0, 1)
and (5, 6) over Int the source intersection returns Error::Empty, while
the claimed behaviour returns Error::NotContinuous for a disjoint pair
with a true gap. -/
theorem c1_counterexample :
    Span.intersection (⟨0, 1⟩ : Span Int) ⟨5, 6⟩ = .error .Empty ∧
    Span.intersectionClaim (⟨0, 1⟩ : Span Int) ⟨5, 6⟩ = .error .NotContinuous := by
  constructor <;> decide

/-- Claim C1 as amended: for every pair of valid intervals, intersection
returns Error::Empty whenever the two intervals are disjoint, touching or
with a gap, and otherwise the interval clipped to the overlap; the error
NotContinuous is never produced and there is no separate touching-endpoint
branch. -/
theorem c1_theorem [LinearOrder T] (a b : Span T) (ha : a.valid) (hb : b.valid) :
    ((a.endp ≤ b.start ∨ b.endp ≤ a.start) → a.intersection b = .error .Empty) ∧
    (¬(a.endp ≤ b.start ∨ b.endp ≤ a.start) →
      a.intersection b = .ok ⟨max a.start b.start, min a.endp b.endp⟩) ∧
    (∀ e, a.intersection b = .error e → e = .Empty) := by
  refine ⟨fun h => ?_, fun h => ?_, fun e he => ?_⟩
  · simp only [Span.intersection, if_pos h]
  · simp only [Span.intersection, if_neg h]
  · by_cases h : a.endp ≤ b.start ∨ b.endp ≤ a.start
    · simp only [Span.intersection, if_pos h] at he
      exact (Except.error.injEq _ _).mp he.symm
    · simp only [Span.intersection, if_neg h] at he
      exact absurd he (by simp)

/-- Witness for c1_theorem at the valid overlapping pair (0, 2) and
(1, 3) over Int. -/
theorem c1_witness :
    Span.valid (⟨0, 2⟩ : Span Int) ∧
    Span.intersection (⟨0, 2⟩ : Span Int) ⟨1, 3⟩ = .ok ⟨1, 2⟩ := by
  have h := (c1_theorem (⟨0, 2⟩ : Span Int) ⟨1, 3⟩ (by decide) (by decide)).2.1 (by decide)
  exact ⟨by decide, by rw [h]; decide⟩

/-- Claim C5: the four displacement operations are atomic, whatever the
displacement functions of the point type do: whenever the result is an
error, the returned state equals the state before the call. -/
theorem c5_theorem [LinearOrder T] (add sub : T → Int → T) (a : Span T) (d : Int) :
    (∀ e, (Span.append add a d).1 = .error e → (Span.append add a d).2 = a) ∧
    (∀ e, (Span.prepend sub a d).1 = .error e → (Span.prepend sub a d).2 = a) ∧
    (∀ e, (Span.pop sub a d).1 = .error e → (Span.pop sub a d).2 = a) ∧
    (∀ e, (Span.shift add a d).1 = .error e → (Span.shift add a d).2 = a) := by
  refine ⟨fun e he => ?_, fun e he => ?_, fun e he => ?_, fun e he => ?_⟩ <;>
    first
      | (simp only [Span.append] at he ⊢; split at he <;> simp_all)
      | (simp only [Span.prepend] at he ⊢; split at he <;> simp_all)
      | (simp only [Span.pop] at he ⊢; split at he <;> simp_all)
      | (simp only [Span.shift] at he ⊢; split at he <;> simp_all)

/-- Witness for c5_theorem: an append of the negative duration -10 to the
Int span (0, 5) fails and leaves the span, in particular its end point,
unchanged. -/
theorem c5_witness :
    (Span.append (fun (t : Int) d => t + d) ⟨0, 5⟩ (-10)).1 = .error .Empty ∧
    (Span.append (fun (t : Int) d => t + d) ⟨0, 5⟩ (-10)).2 = ⟨0, 5⟩ :=
  ⟨by decide,
    (c5_theorem (fun (t : Int) d => t + d) (fun t d => t - d) ⟨0, 5⟩ (-10)).1
      .Empty (by decide)⟩

/-- Claim C7: for valid intervals, symmetric_difference succeeds exactly
when the two intervals are adjacent, returning the concatenation, and
returns Error::NotContinuous in every other configuration. -/
theorem c7_theorem [LinearOrder T] (a b : Span T) (ha : a.valid) (hb : b.valid) :
    ((∃ c, a.symmetric_difference b = .ok c) ↔ (a.endp = b.start ∨ b.endp = a.start)) ∧
    (a.endp = b.start → a.symmetric_difference b = .ok ⟨a.start, b.endp⟩) ∧
    (b.endp = a.start → a.symmetric_difference b = .ok ⟨b.start, a.endp⟩) ∧
    (¬(a.endp = b.start ∨ b.endp = a.start) →
      a.symmetric_difference b = .error .NotContinuous) := by
  have hne : b.endp = a.start → ¬(a.endp = b.start) := by
    intro h1 h2
    have : a.start < a.start := by
      calc a.start < a.endp := ha
        _ = b.start := h2
        _ < b.endp := hb
        _ = a.start := h1
    exact lt_irrefl _ this
  refine ⟨⟨fun ⟨c, hc⟩ => ?_, fun h => ?_⟩, fun h => ?_, fun h => ?_, fun h => ?_⟩
  · by_cases h1 : a.endp = b.start
    · exact Or.inl h1
    · by_cases h2 : b.endp = a.start
      · exact Or.inr h2
      · simp [Span.symmetric_difference, h1, h2] at hc
  · rcases h with h | h
    · exact ⟨⟨a.start, b.endp⟩, by simp [Span.symmetric_difference, h]⟩
    · exact ⟨⟨b.start, a.endp⟩, by simp [Span.symmetric_difference, hne h, h]⟩
  · simp [Span.symmetric_difference, h]
  · simp [Span.symmetric_difference, hne h, h]
  · push_neg at h
    simp [Span.symmetric_difference, h.1, h.2]

/-- Witness for c7_theorem at the adjacent Int spans (9, 10) and
(10, 11), which concatenate to (9, 11). -/
theorem c7_witness :
    Span.symmetric_difference (⟨9, 10⟩ : Span Int) ⟨10, 11⟩ = .ok ⟨9, 11⟩ :=
  (c7_theorem (⟨9, 10⟩ : Span Int) ⟨10, 11⟩ (by decide) (by decide)).2.1 (by decide)

/-- Claim C8: construction succeeds with a non-negative duration exactly
for ordered end points; dsub models signed_duration_since, which is
monotone for every chrono point type. -/
theorem c8_theorem [LinearOrder T] (dsub : T → T → Int)
    (hmono : ∀ x y : T, x ≤ y → 0 ≤ dsub y x) (s e : T) :
    (s < e → Span.new s e = .ok ⟨s, e⟩ ∧ 0 ≤ Span.duration dsub ⟨s, e⟩) ∧
    (e ≤ s → Span.new s e = .error .Ordering) := by
  constructor
  · intro h
    refine ⟨?_, hmono s e (le_of_lt h)⟩
    simp only [Span.new, ge_iff_le, if_neg (not_le.mpr h)]
  · intro h
    simp only [Span.new, ge_iff_le, if_pos h]

/-- Witness for c8_theorem over Int with subtraction as
signed_duration_since, at the ordered pair 1 and 4 and at the reversed
pair 4 and 1. -/
theorem c8_witness :
    (Span.new (1 : Int) 4 = .ok ⟨1, 4⟩ ∧ 0 ≤ Span.duration (fun x y => x - y) ⟨1, 4⟩) ∧
    Span.new (4 : Int) 1 = .error .Ordering :=
  ⟨(c8_theorem (fun x y => x - y) (fun x y h => by dsimp only; omega) 1 4).1 (by decide),
    (c8_theorem (fun x y => x - y) (fun x y h => by dsimp only; omega) 4 1).2 (by decide)⟩

/-- Claim C10: intersection fails exactly when is_disjoint holds, the
disjointness test is symmetric, and intersection is commutative whenever
it succeeds. -/
theorem c10_theorem [LinearOrder T] (a b : Span T) :
    ((∃ e, a.intersection b = .error e) ↔ a.is_disjoint b = true) ∧
    (a.is_disjoint b = b.is_disjoint a) ∧
    (∀ c, a.intersection b = .ok c → b.intersection a = .ok c) := by
  refine ⟨⟨fun ⟨e, he⟩ => ?_, fun h => ?_⟩, ?_, fun c hc => ?_⟩
  · by_cases h : a.endp ≤ b.start ∨ b.endp ≤ a.start
    · simp [Span.is_disjoint]
      tauto
    · simp [Span.intersection, if_neg h] at he
  · have h : a.endp ≤ b.start ∨ b.endp ≤ a.start := by
      simp [Span.is_disjoint] at h
      tauto
    exact ⟨.Empty, by simp [Span.intersection, if_pos h]⟩
  · simp only [Span.is_disjoint, ge_iff_le, decide_eq_decide]
    tauto
  · have h : ¬(a.endp ≤ b.start ∨ b.endp ≤ a.start) := by
      intro h
      simp [Span.intersection, if_pos h] at hc
    have h' : ¬(b.endp ≤ a.start ∨ a.endp ≤ b.start) := fun h' => h (h'.symm)
    simp only [Span.intersection, if_neg h] at hc
    simp only [Span.intersection, if_neg h']
    rw [← hc, max_comm, min_comm]

/-- Witness for c10_theorem: the successful intersection of the Int spans
(0, 2) and (1, 3) commutes. -/
theorem c10_witness :
    Span.intersection (⟨1, 3⟩ : Span Int) ⟨0, 2⟩ = .ok ⟨1, 2⟩ :=
  (c10_theorem (⟨0, 2⟩ : Span Int) ⟨1, 3⟩).2.2 ⟨1, 2⟩ (by decide)

/-- Claim C2: the strict ordering invariant is preserved by every public
operation: construction rejects unordered end points, every span returned
by the algebra operations and split_off is valid, and the state left
behind by the four displacement operations is valid whether they succeed
or fail. -/
theorem c2_theorem [LinearOrder T] (add sub : T → Int → T) (a b : Span T)
    (p : T) (d : Int) (ha : a.valid) (hb : b.valid) :
    (∀ s e : T, ∀ sp, Span.new s e = .ok sp → sp.valid) ∧
    (∀ c, a.difference b = .ok c → c.valid) ∧
    (∀ c, a.symmetric_difference b = .ok c → c.valid) ∧
    (∀ c, a.intersection b = .ok c → c.valid) ∧
    (∀ c, a.union b = .ok c → c.valid) ∧
    (∀ c1 c2, a.split_off p = .ok (c1, c2) → c1.valid ∧ c2.valid) ∧
    (Span.append add a d).2.valid ∧
    (Span.prepend sub a d).2.valid ∧
    (Span.pop sub a d).2.valid ∧
    (Span.shift add a d).2.valid := by
  refine ⟨fun s e sp h => ?_, fun c h => ?_, fun c h => ?_, fun c h => ?_,
    fun c h => ?_, fun c1 c2 h => ?_, ?_, ?_, ?_, ?_⟩
  · simp only [Span.new, ge_iff_le] at h
    split_ifs at h with hge
    cases h
    exact not_le.mp hge
  · simp only [Span.difference, ge_iff_le, gt_iff_lt] at h
    split_ifs at h with h1 h2 h3 h4 h5 <;> cases h
    · exact ha
    · exact ha
    · exact h4.2.2
    · exact h5.2.2
  · simp only [Span.symmetric_difference] at h
    split_ifs at h with h1 h2 <;> cases h
    · exact ha.trans (h1 ▸ hb)
    · exact hb.trans (h2 ▸ ha)
  · simp only [Span.intersection] at h
    split_ifs at h with h1
    cases h
    push_neg at h1
    exact max_lt (lt_min ha h1.2) (lt_min h1.1 hb)
  · simp only [Span.union] at h
    split_ifs at h with h1
    cases h
    exact lt_of_le_of_lt (min_le_left _ _) (lt_of_lt_of_le ha (le_max_left _ _))
  · simp only [Span.split_off, ge_iff_le] at h
    split_ifs at h with h1
    cases h
    push_neg at h1
    exact ⟨h1.1, h1.2⟩
  · simp only [Span.append]
    split_ifs with h1
    · exact ha
    · exact not_le.mp h1
  · simp only [Span.prepend, ge_iff_le]
    split_ifs with h1
    · exact ha
    · exact not_le.mp h1
  · simp only [Span.pop]
    split_ifs with h1
    · exact ha
    · exact not_le.mp h1
  · simp only [Span.shift, ge_iff_le]
    split_ifs with h1
    · exact ha
    · exact not_le.mp h1

/-- Witness for c2_theorem over Int at the valid spans (0, 10) and
(5, 20): their intersection (5, 10) is valid and the state after an
append of 2 is valid. -/
theorem c2_witness :
    Span.valid (⟨5, 10⟩ : Span Int) ∧
    (Span.append (fun (t : Int) d => t + d) ⟨0, 10⟩ 2).2.valid := by
  have h := c2_theorem (fun (t : Int) d => t + d) (fun t d => t - d)
    (⟨0, 10⟩ : Span Int) ⟨5, 20⟩ 3 2 (by decide) (by decide)
  exact ⟨h.2.2.2.1 ⟨5, 10⟩ (by decide), h.2.2.2.2.2.2.1⟩

/-- Claim C4: for valid spans, difference agrees with the five-case policy
table of the specification, evaluated in order, and its NotContinuous case
arises exactly with the other span strictly inside self. -/
theorem c4_theorem [LinearOrder T] (a b : Span T) (ha : a.valid) (hb : b.valid) :
    a.difference b = a.differenceSpec b ∧
    (a.difference b = .error .NotContinuous →
      a.start < b.start ∧ b.endp < a.endp) := by
  constructor
  · simp only [Span.difference, Span.differenceSpec, ge_iff_le, gt_iff_lt]
    split_ifs <;> first | rfl | tauto
  · intro h
    simp only [Span.difference, ge_iff_le, gt_iff_lt] at h
    split_ifs at h with h1 h2 h3 h4 h5 <;> try simp at h
    have hba : b.start < a.endp := not_le.mp h2
    have hab : a.start < b.endp := not_le.mp h3
    have hstart : a.start < b.start := by
      by_contra hh
      have hh' : b.start ≤ a.start := not_lt.mp hh
      have hend' : ¬(b.endp < a.endp) := fun hlt => h5 ⟨hh', hab, hlt⟩
      exact h1 ⟨hh', not_lt.mp hend'⟩
    have hend : b.endp < a.endp := by
      by_contra hh
      exact h4 ⟨hba, not_lt.mp hh, hstart⟩
    exact ⟨hstart, hend⟩

/-- Witness for c4_theorem over Int at the valid spans (0, 10) and (3, 5),
where the second is strictly inside the first. -/
theorem c4_witness :
    Span.difference (⟨0, 10⟩ : Span Int) ⟨3, 5⟩ = Span.differenceSpec ⟨0, 10⟩ ⟨3, 5⟩ ∧
    ((0 : Int) < 3 ∧ (5 : Int) < 10) := by
  have h := c4_theorem (⟨0, 10⟩ : Span Int) ⟨3, 5⟩ (by decide) (by decide)
  exact ⟨h.1, h.2 (by decide)⟩

/-!
Lemmas about the template pattern: a successful match captures one
substring per group, and a template containing both placeholders compiles
to a pattern with at least two groups.
-/

lemma startTok_decomp {l : List Char} (h : startTok.isPrefixOf l) :
    ∃ t, l = '{' :: 's' :: 't' :: 'a' :: 'r' :: 't' :: '}' :: t := by
  rw [List.isPrefixOf_iff_prefix] at h
  obtain ⟨t, ht⟩ := h
  exact ⟨t, ht.symm⟩

lemma endTok_decomp {l : List Char} (h : endTok.isPrefixOf l) :
    ∃ t, l = '{' :: 'e' :: 'n' :: 'd' :: '}' :: t := by
  rw [List.isPrefixOf_iff_prefix] at h
  obtain ⟨t, ht⟩ := h
  exact ⟨t, ht.symm⟩

lemma startTok_not_prefix {c : Char} {t : List Char}
    (hns : ∀ t1, c = '{' → t = 's' :: 't' :: 'a' :: 'r' :: 't' :: '}' :: t1 → False) :
    ¬ startTok.isPrefixOf (c :: t) = true := by
  intro hp
  obtain ⟨t1, ht1⟩ := startTok_decomp hp
  injection ht1 with h1 h2
  exact hns t1 h1 h2

lemma endTok_not_prefix {c : Char} {t : List Char}
    (hne : ∀ t1, c = '{' → t = 'e' :: 'n' :: 'd' :: '}' :: t1 → False) :
    ¬ endTok.isPrefixOf (c :: t) = true := by
  intro hp
  obtain ⟨t1, ht1⟩ := endTok_decomp hp
  injection ht1 with h1 h2
  exact hne t1 h1 h2

lemma findSub_skip_start {t : List Char}
    (h : findSub endTok ('{' :: 's' :: 't' :: 'a' :: 'r' :: 't' :: '}' :: t) ≠ none) :
    findSub endTok t ≠ none := by
  intro hn
  apply h
  simp [findSub, endTok, List.isPrefixOf]
  exact hn

lemma findSub_skip_end {t : List Char}
    (h : findSub startTok ('{' :: 'e' :: 'n' :: 'd' :: '}' :: t) ≠ none) :
    findSub startTok t ≠ none := by
  intro hn
  apply h
  simp [findSub, startTok, List.isPrefixOf]
  exact hn

/-- A template containing one of the placeholders compiles to a pattern
with at least one group. -/
lemma toPattern_one_group (pat : List Char) (hpat : pat = startTok ∨ pat = endTok) :
    ∀ l, findSub pat l ≠ none → 1 ≤ countGroups (toPattern l) := by
  intro l
  induction l using toPattern.induct with
  | case1 t ih =>
    intro _
    rw [toPattern.eq_1]
    simp [countGroups]
  | case2 t ih =>
    intro _
    rw [toPattern.eq_2]
    simp [countGroups]
  | case3 c t hns hne ih =>
    intro h
    rw [toPattern.eq_3 c t hns hne]
    have hpre : ¬ pat.isPrefixOf (c :: t) = true := by
      rcases hpat with rfl | rfl
      · exact startTok_not_prefix hns
      · exact endTok_not_prefix hne
    have h' : findSub pat t ≠ none := by
      intro hn
      apply h
      simp [findSub, hpre, hn]
    simpa [countGroups] using ih h'
  | case4 =>
    intro h
    rcases hpat with rfl | rfl <;> simp [findSub, startTok, endTok] at h

/-- A template containing both placeholders compiles to a pattern with at
least two groups. -/
lemma toPattern_two_groups :
    ∀ l, findSub startTok l ≠ none → findSub endTok l ≠ none →
      2 ≤ countGroups (toPattern l) := by
  intro l
  induction l using toPattern.induct with
  | case1 t ih =>
    intro _ he
    rw [toPattern.eq_1]
    have h1 := toPattern_one_group endTok (Or.inr rfl) t (findSub_skip_start he)
    simp only [countGroups]
    omega
  | case2 t ih =>
    intro hs _
    rw [toPattern.eq_2]
    have h1 := toPattern_one_group startTok (Or.inl rfl) t (findSub_skip_end hs)
    simp only [countGroups]
    omega
  | case3 c t hns hne ih =>
    intro hs he
    rw [toPattern.eq_3 c t hns hne]
    have hs' : findSub startTok t ≠ none := by
      intro hn
      apply hs
      simp [findSub, startTok_not_prefix hns, hn]
    have he' : findSub endTok t ≠ none := by
      intro hn
      apply he
      simp [findSub, endTok_not_prefix hne, hn]
    simpa [countGroups] using ih hs' he'
  | case4 =>
    intro hs _
    simp [findSub, startTok] at hs

/-- Every successful continuation behind a group yields one more captured
substring. -/
lemma groupGo_length {k : List Char → Option (List (List Char))} {n : Nat}
    (hk : ∀ r cs, k r = some cs → cs.length = n) :
    ∀ gRev rest cs, groupGo k gRev rest = some cs → cs.length = n + 1 := by
  intro gRev
  induction gRev with
  | nil =>
    intro rest cs h
    simp only [groupGo] at h
    cases hkr : k rest with
    | none => simp [hkr] at h
    | some cs0 =>
      rw [hkr, Option.map_some'] at h
      injection h with h
      rw [← h]
      simp [hk rest cs0 hkr]
  | cons c gRev ih =>
    intro rest cs h
    simp only [groupGo] at h
    cases hkr : k rest with
    | none =>
      simp only [hkr] at h
      exact ih (c :: rest) cs h
    | some cs0 =>
      rw [hkr] at h
      injection h with h
      rw [← h]
      simp [hk rest cs0 hkr]

/-- The whitespace atom captures nothing. -/
lemma wsGo_length {k : List Char → Option (List (List Char))} {n : Nat}
    (hk : ∀ r cs, k r = some cs → cs.length = n) :
    ∀ wRev rest cs, wsGo k wRev rest = some cs → cs.length = n := by
  intro wRev
  induction wRev with
  | nil =>
    intro rest cs h
    simp [wsGo] at h
  | cons c wRev ih =>
    intro rest cs h
    simp only [wsGo] at h
    cases hkr : k rest with
    | none =>
      rw [hkr] at h
      exact ih (c :: rest) cs h
    | some cs0 =>
      rw [hkr] at h
      injection h with h
      rw [← h]
      exact hk rest cs0 hkr

/-- A successful match of a pattern captures exactly one substring per
group of the pattern. -/
lemma matchToks_length :
    ∀ ts l cs, matchToks ts l = some cs → cs.length = countGroups ts := by
  intro ts
  induction ts with
  | nil =>
    intro l cs h
    simp only [matchToks] at h
    cases h
    simp [countGroups]
  | cons tok ts ih =>
    cases tok with
    | lit c =>
      intro l cs h
      cases l with
      | nil => simp [matchToks] at h
      | cons x xs =>
        simp only [matchToks] at h
        by_cases hx : x = c
        · rw [if_pos hx] at h
          simpa [countGroups] using ih xs cs h
        · rw [if_neg hx] at h
          exact Option.noConfusion h
    | group =>
      intro l cs h
      simp only [matchToks] at h
      have := groupGo_length (fun r cs0 hr => ih r cs0 hr) _ _ _ h
      simpa [countGroups] using this
    | wsPlus =>
      intro l cs h
      simp only [matchToks] at h
      split_ifs at h with hw
      have := wsGo_length (fun r cs0 hr => ih r cs0 hr) _ _ _ h
      simpa [countGroups] using this

/-- The unanchored search inherits the capture count of the pattern. -/
lemma capSearch_length {p : List Tok} :
    ∀ s cs, capSearch p s = some cs → cs.length = countGroups p := by
  intro s
  induction s with
  | nil =>
    intro cs h
    simp only [capSearch] at h
    exact matchToks_length p [] cs h
  | cons c t ih =>
    intro cs h
    simp only [capSearch] at h
    cases hm : matchToks p (c :: t) with
    | some cs0 =>
      rw [hm] at h
      injection h with h
      rw [← h]
      exact matchToks_length p (c :: t) cs0 hm
    | none =>
      rw [hm] at h
      exact ih cs h

/-- Claim C9: parse_from_str never reaches the unchecked unwraps with a
missing capture group: for every input, template, and point formats the
model never returns the panic marker none.  Whenever the pattern built
from the template matches and both placeholders were found, the match
carries at least two captured substrings. -/
theorem c9_theorem [LinearOrder T] (parse : List Char → List Char → Except Error T)
    (s fmt startFmt endFmt : List Char) :
    Span.parse_from_str parse s fmt startFmt endFmt ≠ none := by
  unfold Span.parse_from_str
  cases hcaps : capSearch (toPattern fmt) s with
  | none => simp
  | some caps =>
    cases hs : findSub startTok fmt with
    | none => simp
    | some si =>
      cases he : findSub endTok fmt with
      | none => simp
      | some ei =>
        have hlen : caps.length = countGroups (toPattern fmt) :=
          capSearch_length s caps hcaps
        have h2 : 2 ≤ caps.length := by
          rw [hlen]
          exact toPattern_two_groups fmt (by simp [hs]) (by simp [he])
        match caps, h2 with
        | m1 :: m2 :: rest, _ => simp

/-- Claim C6: when the end placeholder occurs before the start placeholder
in the template, the first captured substring is parsed as the end point
and the second as the start point. -/
theorem c6_theorem [LinearOrder T] (parse : List Char → List Char → Except Error T)
    (s fmt startFmt endFmt : List Char) (si ei : Nat) (caps : List (List Char))
    (m1 m2 : List Char)
    (hs : findSub startTok fmt = some si) (he : findSub endTok fmt = some ei)
    (hlt : ei < si)
    (hcaps : capSearch (toPattern fmt) s = some caps)
    (hm1 : caps.get? 0 = some m1) (hm2 : caps.get? 1 = some m2) :
    Span.parse_from_str parse s fmt startFmt endFmt =
      some ((parse m2 startFmt).bind fun a =>
        (parse m1 endFmt).bind fun b => Span.new a b) := by
  simp only [Span.parse_from_str, hcaps, hs, he, hm1, hm2]
  rw [if_neg (by omega)]

/-- Witness for c6_theorem: the template places the end placeholder first,
and the input parses to the span from 3 to 7 even though 7 is captured
first. -/
theorem c6_witness :
    Span.parse_from_str (fun l _ => parseNatPoint l) ("end: 7, start: 3".toList)
      (("end: ".toList) ++ endTok ++ (", start: ".toList) ++ startTok)
      [] [] = some (.ok ⟨3, 7⟩) := by
  have h := c6_theorem (T := Nat) (fun l _ => parseNatPoint l)
      ("end: 7, start: 3".toList)
      (("end: ".toList) ++ endTok ++ (", start: ".toList) ++ startTok)
      [] [] 19 5 ["7".toList, "3".toList] ("7".toList) ("3".toList)
      (by decide) (by decide) (by decide) (by decide) (by decide) (by decide)
  rw [h]
  decide

/-!
Lemmas for the default parse: the greedy matcher of the FromStr regex
splits the input at the last separator occurrence.
-/

lemma isWs_ne_hyphen {c : Char} (h : isWs c = true) : ¬(c = '-') := by
  intro hc
  subst hc
  exact absurd h (by decide)

lemma mem_of_mem_dropWhile {α : Type} {p : α → Bool} :
    ∀ {l : List α} {x : α}, x ∈ l.dropWhile p → x ∈ l := by
  intro l
  induction l with
  | nil => intro x hx; simp [List.dropWhile] at hx
  | cons a t ih =>
    intro x hx
    by_cases hp : p a
    · rw [List.dropWhile_cons_of_pos hp] at hx
      exact List.mem_cons_of_mem a (ih hx)
    · rw [List.dropWhile_cons_of_neg (by simpa using hp)] at hx
      exact hx

lemma groupGo_of_some {k : List Char → Option (List (List Char))}
    {rest : List Char} {cs : List (List Char)} (hk : k rest = some cs) :
    ∀ gRev, groupGo k gRev rest = some (gRev.reverse :: cs) := by
  intro gRev
  cases gRev with
  | nil => simp [groupGo, hk]
  | cons c g => simp [groupGo, hk]

lemma wsGo_of_some {k : List Char → Option (List (List Char))}
    {rest : List Char} {cs : List (List Char)} (hk : k rest = some cs) :
    ∀ c wRev, wsGo k (c :: wRev) rest = some cs := by
  intro c wRev
  simp [wsGo, hk]

/-- When the continuation rejects every remainder that begins with a
whitespace character, the backtracking over the whitespace run collapses
to the single attempt with the full run consumed. -/
lemma wsGo_eq_first {k : List Char → Option (List (List Char))}
    (hfail : ∀ c r, isWs c = true → k (c :: r) = none) :
    ∀ wRev rest, (∀ c ∈ wRev, isWs c = true) →
      wsGo k wRev rest = match wRev with | [] => none | _ :: _ => k rest := by
  intro wRev
  induction wRev with
  | nil => intro rest _; simp [wsGo]
  | cons c w ih =>
    intro rest hws
    rw [show wsGo k (c :: w) rest =
      (match k rest with
       | some cs => some cs
       | none => wsGo k w (c :: rest)) from rfl]
    cases hk : k rest with
    | some cs => rfl
    | none =>
      simp only []
      rw [ih (c :: rest) (fun x hx => hws x (List.mem_cons_of_mem c hx))]
      cases w with
      | nil => simp [hk]
      | cons d w' =>
        rw [hfail c rest (hws c (List.mem_cons_self c (d :: w')))]

/-- A single group matches everything up to the first newline. -/
lemma matchToks_group_only (l : List Char) :
    matchToks [.group] l = some [l.takeWhile (fun c => !(c == '\n'))] := by
  rw [show matchToks [.group] l =
    groupGo (matchToks []) (l.takeWhile (fun c => !(c == '\n'))).reverse
      (l.drop (l.takeWhile (fun c => !(c == '\n'))).length) from rfl]
  rw [groupGo_of_some (show matchToks []
    (l.drop (l.takeWhile (fun c => !(c == '\n'))).length) = some [] from rfl)]
  simp

lemma drop_takeWhile_length {p : Char → Bool} :
    ∀ l : List Char, l.drop (l.takeWhile p).length = l.dropWhile p := by
  intro l
  induction l with
  | nil => rfl
  | cons a t ih =>
    by_cases hp : p a
    · rw [List.takeWhile_cons_of_pos hp, List.dropWhile_cons_of_pos hp]
      simpa using ih
    · rw [List.takeWhile_cons_of_neg (by simpa using hp),
        List.dropWhile_cons_of_neg (by simpa using hp)]
      simp

/-- The regex tail behind the leading group recognises exactly the
separator of sepCut, capturing the remainder up to the first newline. -/
lemma matchToks_tail (l : List Char) :
    matchToks fromStrTail l =
      (sepCut l).map (fun r => [r.takeWhile (fun c => !(c == '\n'))]) := by
  rw [show matchToks fromStrTail l =
    (if (l.takeWhile isWs).isEmpty then none
     else wsGo (matchToks [.lit '-', .wsPlus, .group])
       (l.takeWhile isWs).reverse (l.drop (l.takeWhile isWs).length)) from rfl]
  by_cases hw : (l.takeWhile isWs).isEmpty
  · rw [if_pos hw]
    rw [show sepCut l = (if (l.takeWhile isWs).isEmpty then none else
      (match l.dropWhile isWs with
       | x :: r2 =>
         if x = '-' then
           if (r2.takeWhile isWs).isEmpty then none
           else some (r2.dropWhile isWs)
         else none
       | [] => none)) from rfl]
    rw [if_pos hw]
    rfl
  · rw [if_neg hw]
    have hfail : ∀ c r, isWs c = true →
        matchToks [.lit '-', .wsPlus, .group] (c :: r) = none := by
      intro c r hc
      rw [show matchToks [.lit '-', .wsPlus, .group] (c :: r) =
        (if c = '-' then matchToks [.wsPlus, .group] r else none) from rfl]
      rw [if_neg (isWs_ne_hyphen hc)]
    have hws : ∀ c ∈ (l.takeWhile isWs).reverse, isWs c = true := fun c hc =>
      List.mem_takeWhile_imp (List.mem_reverse.mp hc)
    rw [wsGo_eq_first hfail _ _ hws]
    have hne : (l.takeWhile isWs).reverse ≠ [] := by
      intro hr
      apply hw
      rw [List.isEmpty_iff, ← List.reverse_eq_nil_iff]
      exact hr
    rw [show sepCut l = (if (l.takeWhile isWs).isEmpty then none else
      (match l.dropWhile isWs with
       | x :: r2 =>
         if x = '-' then
           if (r2.takeWhile isWs).isEmpty then none
           else some (r2.dropWhile isWs)
         else none
       | [] => none)) from rfl]
    rw [if_neg hw]
    cases hrev : (l.takeWhile isWs).reverse with
    | nil => exact absurd hrev hne
    | cons c w' =>
      simp only []
      rw [drop_takeWhile_length]
      cases hd : l.dropWhile isWs with
      | nil => rfl
      | cons x r2 =>
        simp only []
        by_cases hx : x = '-'
        · subst hx
          rw [if_pos rfl]
          rw [show matchToks [.lit '-', .wsPlus, .group] ('-' :: r2) =
            (if '-' = '-' then matchToks [.wsPlus, .group] r2 else none) from rfl]
          rw [if_pos rfl]
          rw [show matchToks [.wsPlus, .group] r2 =
            (if (r2.takeWhile isWs).isEmpty then none
             else wsGo (matchToks [.group]) (r2.takeWhile isWs).reverse
               (r2.drop (r2.takeWhile isWs).length)) from rfl]
          by_cases hw2 : (r2.takeWhile isWs).isEmpty
          · rw [if_pos hw2, if_pos hw2]
            rfl
          · rw [if_neg hw2, if_neg hw2]
            cases hrev2 : (r2.takeWhile isWs).reverse with
            | nil =>
              exfalso
              apply hw2
              rw [List.isEmpty_iff, ← List.reverse_eq_nil_iff]
              exact hrev2
            | cons c2 w2' =>
              rw [wsGo_of_some (matchToks_group_only
                (r2.drop (r2.takeWhile isWs).length))]
              rw [drop_takeWhile_length]
              rfl
        · rw [show matchToks [.lit '-', .wsPlus, .group] (x :: r2) =
            (if x = '-' then matchToks [.wsPlus, .group] r2 else none) from rfl]
          rw [if_neg hx, if_neg hx]
          rfl

/-- Appending one character to the searched part adds one candidate
separator position of highest priority. -/
lemma ldsAux_append : ∀ (w : List Char) (c : Char) (v : List Char),
    ldsAux (w ++ [c]) v =
      match sepCut (c :: v) with
      | some r => some (w, r)
      | none => ldsAux w (c :: v) := by
  intro w
  induction w with
  | nil =>
    intro c v
    cases hsc : sepCut (c :: v) <;> simp [ldsAux, hsc]
  | cons d w ih =>
    intro c v
    rw [show ldsAux (d :: w ++ [c]) v =
      (match ldsAux (w ++ [c]) v with
       | some p => some (d :: p.1, p.2)
       | none => (sepCut (d :: (w ++ [c] ++ v))).map
           (fun r => (([] : List Char), r))) from rfl]
    rw [ih]
    cases hsc : sepCut (c :: v) with
    | some r => rfl
    | none =>
      simp only []
      rw [show ldsAux (d :: w) (c :: v) =
        (match ldsAux w (c :: v) with
         | some p => some (d :: p.1, p.2)
         | none => (sepCut (d :: (w ++ (c :: v)))).map
             (fun r => (([] : List Char), r))) from rfl]
      cases ldsAux w (c :: v) with
      | some p => rfl
      | none => simp [List.append_assoc]

lemma ldsAux_nil : ∀ s, ldsAux s [] = lastDelimSplit s := by
  intro s
  induction s with
  | nil => rfl
  | cons c t ih =>
    rw [show ldsAux (c :: t) [] =
      (match ldsAux t [] with
       | some p => some (c :: p.1, p.2)
       | none => (sepCut (c :: (t ++ []))).map
           (fun r => (([] : List Char), r))) from rfl]
    rw [show lastDelimSplit (c :: t) =
      (match lastDelimSplit t with
       | some p => some (c :: p.1, p.2)
       | none => (sepCut (c :: t)).map
           (fun r => (([] : List Char), r))) from rfl]
    rw [ih]
    cases lastDelimSplit t with
    | some p => rfl
    | none => simp

/-- The greedy backtracking of the leading group implements the search for
the separator occurrence that starts latest. -/
lemma groupGo_lds : ∀ u v, groupGo (matchToks fromStrTail) u.reverse v =
    match matchToks fromStrTail v with
    | some cs => some (u :: cs)
    | none => (ldsAux u v).map
        (fun p => [p.1, p.2.takeWhile (fun c => !(c == '\n'))]) := by
  intro u
  induction u using List.reverseRecOn with
  | nil =>
    intro v
    cases hk : matchToks fromStrTail v with
    | some cs => simp [groupGo, hk]
    | none => simp [groupGo, hk, ldsAux]
  | append_singleton w c ih =>
    intro v
    have hrev : (w ++ [c]).reverse = c :: w.reverse := by simp
    rw [hrev]
    rw [show groupGo (matchToks fromStrTail) (c :: w.reverse) v =
      (match matchToks fromStrTail v with
       | some cs => some ((c :: w.reverse).reverse :: cs)
       | none => groupGo (matchToks fromStrTail) w.reverse (c :: v)) from rfl]
    cases hk : matchToks fromStrTail v with
    | some cs => simp
    | none =>
      simp only []
      rw [ih (c :: v), ldsAux_append, matchToks_tail (c :: v)]
      cases hsc : sepCut (c :: v) with
      | some r => simp
      | none => simp

/-- Every character of a sepCut remainder is a character of the input. -/
lemma sepCut_mem {l r : List Char} (h : sepCut l = some r) :
    ∀ c ∈ r, c ∈ l := by
  intro c hc
  simp only [sepCut] at h
  split_ifs at h with h1
  cases hd : l.dropWhile isWs with
  | nil => rw [hd] at h; exact Option.noConfusion h
  | cons x r2 =>
    rw [hd] at h
    simp only [] at h
    split_ifs at h with hx h2
    injection h with h
    rw [← h] at hc
    have h3 : c ∈ r2 := mem_of_mem_dropWhile hc
    have h4 : c ∈ l.dropWhile isWs := by
      rw [hd]
      exact List.mem_cons_of_mem x h3
    exact mem_of_mem_dropWhile h4

/-- The end part of the split is made of characters of the input. -/
lemma lds_mem_snd : ∀ (s : List Char) (p : List Char × List Char),
    lastDelimSplit s = some p → ∀ c ∈ p.2, c ∈ s := by
  intro s
  induction s with
  | nil => intro p h; exact Option.noConfusion h
  | cons a t ih =>
    intro p h c hc
    rw [show lastDelimSplit (a :: t) =
      (match lastDelimSplit t with
       | some q => some (a :: q.1, q.2)
       | none => (sepCut (a :: t)).map
           (fun r => (([] : List Char), r))) from rfl] at h
    cases hld : lastDelimSplit t with
    | some q =>
      rw [hld] at h
      injection h with h
      rw [← h] at hc
      exact List.mem_cons_of_mem a (ih q hld c hc)
    | none =>
      rw [hld] at h
      cases hsc : sepCut (a :: t) with
      | none => rw [hsc] at h; exact Option.noConfusion h
      | some r =>
        rw [hsc] at h
        injection h with h
        rw [← h] at hc
        exact sepCut_mem hsc c hc

/-- For a newline-free input the FromStr pattern matches at position zero
exactly when a separator occurs, capturing the longest prefix before a
separator and the remainder behind it. -/
lemma matchToks_fromStr (s : List Char) (hnl : ∀ c ∈ s, ¬(c = '\n')) :
    matchToks fromStrPat s = (lastDelimSplit s).map (fun p => [p.1, p.2]) := by
  have hg : s.takeWhile (fun c => !(c == '\n')) = s :=
    List.takeWhile_eq_self_iff.mpr (fun c hc => by simp [hnl c hc])
  rw [show matchToks fromStrPat s =
    groupGo (matchToks fromStrTail)
      (s.takeWhile (fun c => !(c == '\n'))).reverse
      (s.drop (s.takeWhile (fun c => !(c == '\n'))).length) from rfl]
  rw [hg, List.drop_length]
  rw [groupGo_lds s []]
  rw [show matchToks fromStrTail [] = none from rfl]
  simp only []
  rw [ldsAux_nil]
  cases hld : lastDelimSplit s with
  | none => rfl
  | some p =>
    simp only [Option.map_some']
    have h2 : ∀ c ∈ p.2, ¬(c = '\n') := fun c hc =>
      hnl c (lds_mem_snd s p hld c hc)
    rw [List.takeWhile_eq_self_iff.mpr (fun c hc => by simp [h2 c hc])]

/-- The unanchored search adds nothing for the FromStr pattern: its
leading group already covers every start position of a newline-free
input. -/
lemma capSearch_fromStr : ∀ s : List Char, (∀ c ∈ s, ¬(c = '\n')) →
    capSearch fromStrPat s = (lastDelimSplit s).map (fun p => [p.1, p.2]) := by
  intro s
  induction s with
  | nil =>
    intro _
    rw [show capSearch fromStrPat [] = matchToks fromStrPat [] from rfl]
    exact matchToks_fromStr [] (by simp)
  | cons a t ih =>
    intro hnl
    rw [show capSearch fromStrPat (a :: t) =
      (match matchToks fromStrPat (a :: t) with
       | some cs => some cs
       | none => capSearch fromStrPat t) from rfl]
    rw [matchToks_fromStr (a :: t) hnl]
    cases hld : lastDelimSplit (a :: t) with
    | some p => simp
    | none =>
      simp only [Option.map_none']
      have hldt : lastDelimSplit t = none := by
        cases hq : lastDelimSplit t with
        | none => rfl
        | some q =>
          rw [show lastDelimSplit (a :: t) =
            (match lastDelimSplit t with
             | some p => some (a :: p.1, p.2)
             | none => (sepCut (a :: t)).map
                 (fun r => (([] : List Char), r))) from rfl, hq] at hld
          exact Option.noConfusion hld
      rw [ih (fun c hc => hnl c (List.mem_cons_of_mem a hc)), hldt]
      rfl

/-- Claim C3, counterexample: with the identity-length point parser over
Nat the default parse of the source splits at the last separator and
requires whitespace around the hyphen, while the claimed behaviour splits
at the first hyphen with optional whitespace and pads a missing
delimiter. -/
theorem c3_counterexample :
    Span.from_str parseNatPoint ("1-2".toList) = .error .Empty ∧
    fromStrClaim parseNatPoint ("1-2".toList) = .ok ⟨1, 2⟩ ∧
    Span.from_str parseLen ("1 - 2 - 3".toList) = .error .Ordering ∧
    fromStrClaim parseLen ("1 - 2 - 3".toList) = .ok ⟨1, 5⟩ := by
  refine ⟨?_, ?_, ?_, ?_⟩ <;> decide

/-- Claim C3 as amended: on newline-free input the default parse splits at
the last occurrence of the separator made of one-or-more whitespace, a
hyphen, and one-or-more whitespace, equivalently the start part is the
longest prefix followed by such a separator, with the whitespace run after
the hyphen absorbed; when no separator occurs the parse fails with
Error::Empty; the two parts are parsed with the native point parser and
the span is built with the validating constructor. -/
theorem c3_theorem [LinearOrder T] (parse : List Char → Except Error T)
    (s : List Char) (hnl : ∀ c ∈ s, ¬(c = '\n')) :
    Span.from_str parse s =
      match lastDelimSplit s with
      | none => .error .Empty
      | some p =>
        (parse p.1).bind fun a => (parse p.2).bind fun b => Span.new a b := by
  unfold Span.from_str
  rw [capSearch_fromStr s hnl]
  cases lastDelimSplit s with
  | none => rfl
  | some p => rfl

/-- Witness for c3_theorem: the newline-free input with two separator
candidates splits at the last one. -/
theorem c3_witness :
    Span.from_str parseLen ("ab - cd - efg".toList) = .error .Ordering ∧
    lastDelimSplit ("ab - cd - efg".toList) =
      some ("ab - cd".toList, "efg".toList) := by
  have h := c3_theorem (T := Nat) parseLen ("ab - cd - efg".toList) (by decide)
  constructor
  · rw [h]
    decide
  · decide

end Timespan
